import Mathlib

/-!
# Verification of the fractal-rust renderer core

Shallow embedding of `src/fractal.rs`, `src/main.rs` (TyrantWave/fractal-rust)
into Lean 4, with theorems settling the specification's claims about the
coordinate mapper, the escape evaluators and the band scheduler.

Machine floating-point (`f64`) arithmetic is modelled by exact rational
arithmetic: complex numbers are pairs of rationals, `Complex::powf` at the
integer exponents 3.0 and 2.0 is modelled as the exact integer power, and
division follows the componentwise formula of the `num` crate (with Lean's
total rational division, which returns 0 on a zero denominator, standing in
for the unguarded float division).
-/

namespace FractalRust

/-- Complex number over exact rationals, modelling `num::complex::Complex<f64>`. -/
structure Cplx where
  re : ℚ
  im : ℚ
deriving DecidableEq, Repr

@[ext] theorem Cplx.ext {a b : Cplx} (hre : a.re = b.re) (him : a.im = b.im) : a = b := by
  cases a; cases b; simp_all

instance : Add Cplx := ⟨fun a b => ⟨a.re + b.re, a.im + b.im⟩⟩

instance : Sub Cplx := ⟨fun a b => ⟨a.re - b.re, a.im - b.im⟩⟩

instance : Mul Cplx := ⟨fun a b => ⟨a.re * b.re - a.im * b.im, a.re * b.im + a.im * b.re⟩⟩

/-- Complex division, componentwise formula of the `num` crate:
`(a/b).re = (a.re*b.re + a.im*b.im) / |b|²`, `(a/b).im = (a.im*b.re - a.re*b.im) / |b|²`. -/
instance : Div Cplx :=
  ⟨fun a b =>
    let d := b.re * b.re + b.im * b.im
    ⟨(a.re * b.re + a.im * b.im) / d, (a.im * b.re - a.re * b.im) / d⟩⟩

/-- `Complex::norm_sqr`: `re*re + im*im`. -/
def Cplx.normSq (z : Cplx) : ℚ := z.re * z.re + z.im * z.im

/-- Embed a rational as a complex number with zero imaginary part (models the
`f64 * Complex<f64>` scalar multiplications in `newton`). -/
def Cplx.ofRat (q : ℚ) : Cplx := ⟨q, 0⟩

/-- Exact integer power, modelling `Complex::powf` at the integer exponents used
by `newton` (`z.powf(3.0)` and `z.powf(2.0)`). -/
def Cplx.powN (z : Cplx) : ℕ → Cplx
  | 0 => ⟨1, 0⟩
  | n + 1 => Cplx.powN z n * z

/-- `FractalResult` from src/fractal.rs: `escape` is the iterations needed to
escape (0 if it did not escape), `value` the final z value. -/
structure FractalResult where
  escape : ℕ
  value : Cplx
deriving DecidableEq, Repr

/-- The `Fractal` enum from src/fractal.rs. -/
inductive Fractal where
  | MANDELBROT
  | JULIA
  | NEWTON
deriving DecidableEq, Repr

/-- Loop body of `mandelbrot` (src/fractal.rs lines 58-74), translated with the
remaining iteration count `fuel` as structural-recursion measure; `i` is the
Rust loop index, so the loop invariant is `i + fuel = limit`. -/
def mandelGo (c : Cplx) (limit : ℕ) : (fuel i : ℕ) → Cplx → FractalResult
  | 0, _, z => ⟨0, z⟩
  | fuel + 1, i, z =>
    let z' := z * z + c
    if 4 < z'.normSq then ⟨limit - i, z'⟩
    else mandelGo c limit fuel (i + 1) z'

/-- `mandelbrot` from src/fractal.rs: iterate `z = z*z + c` from `z = seed`,
bail out when `|z|² > 4`. -/
def mandelbrot (c seed : Cplx) (limit : ℕ) : FractalResult :=
  mandelGo c limit limit 0 seed

/-- Loop body of `julia` (src/fractal.rs lines 78-94). -/
def juliaGo (seed : Cplx) (limit : ℕ) : (fuel i : ℕ) → Cplx → FractalResult
  | 0, _, z => ⟨0, z⟩
  | fuel + 1, i, z =>
    let z' := z * z + seed
    if 4 < z'.normSq then ⟨limit - i, z'⟩
    else juliaGo seed limit fuel (i + 1) z'

/-- `julia` from src/fractal.rs: iterate `z = z*z + seed` from `z = start`. -/
def julia (start seed : Cplx) (limit : ℕ) : FractalResult :=
  juliaGo seed limit limit 0 start

/-- Newton update from src/fractal.rs line 101 with `pow = 3.0`:
`newz = ((pow-1)*z^pow + seed) / (pow * z^(pow-1))`. -/
def newtonStep (seed z : Cplx) : Cplx :=
  (Cplx.ofRat 2 * z.powN 3 + seed) / (Cplx.ofRat 3 * z.powN 2)

/-- Loop body of `newton` (src/fractal.rs lines 97-116). -/
def newtonGo (seed : Cplx) (limit : ℕ) : (fuel i : ℕ) → Cplx → FractalResult
  | 0, _, z => ⟨0, z⟩
  | fuel + 1, i, z =>
    let newz := newtonStep seed z
    if (newz - z).normSq ≤ 1 / 100000 then ⟨limit - i, newz⟩
    else newtonGo seed limit fuel (i + 1) newz

/-- `newton` from src/fractal.rs: Newton-Raphson for `f(z) = z³ - seed`,
bailing out when the squared step size drops to `1e-5` or below. -/
def newton (start seed : Cplx) (limit : ℕ) : FractalResult :=
  newtonGo seed limit limit 0 start

/-- `Fractal::calculate` from src/fractal.rs lines 45-51. -/
def Fractal.calculate (f : Fractal) (c seed : Cplx) (limit : ℕ) : FractalResult :=
  match f with
  | .MANDELBROT => mandelbrot c seed limit
  | .JULIA => julia c seed limit
  | .NEWTON => newton c seed limit

/-- `pixel_to_point` from src/fractal.rs lines 150-164. `bounds` is (width,
height) in pixels, `pixel` a (column, row) pair. -/
def pixel_to_point (bounds pixel : ℕ × ℕ) (upper_left lower_right : Cplx) : Cplx :=
  let width := lower_right.re - upper_left.re
  let height := upper_left.im - lower_right.im
  ⟨upper_left.re + (pixel.1 : ℚ) * width / (bounds.1 : ℚ),
   upper_left.im - (pixel.2 : ℚ) * height / (bounds.2 : ℚ)⟩

/-- The quadratic escape-map `z ↦ z² + c` shared by `mandelbrot` (with `c` the
pixel's point) and `julia` (with `c` the fixed seed). -/
def mandelStep (c z : Cplx) : Cplx := z * z + c

@[simp] theorem Cplx.add_def (a b : Cplx) : a + b = ⟨a.re + b.re, a.im + b.im⟩ := rfl

@[simp] theorem Cplx.sub_def (a b : Cplx) : a - b = ⟨a.re - b.re, a.im - b.im⟩ := rfl

@[simp] theorem Cplx.mul_def (a b : Cplx) :
    a * b = ⟨a.re * b.re - a.im * b.im, a.re * b.im + a.im * b.re⟩ := rfl

@[simp] theorem Cplx.div_def (a b : Cplx) :
    a / b = ⟨(a.re * b.re + a.im * b.im) / (b.re * b.re + b.im * b.im),
             (a.im * b.re - a.re * b.im) / (b.re * b.re + b.im * b.im)⟩ := rfl

/-! ## Loop characterizations of the three evaluators -/

theorem mandelGo_step_eq (c seed : Cplx) (i : ℕ) :
    (mandelStep c)^[i] seed * (mandelStep c)^[i] seed + c = (mandelStep c)^[i + 1] seed := by
  rw [Function.iterate_succ_apply']; rfl

/-- When no iterate up to `limit` bails out, `mandelGo` runs its fuel down and
returns escape 0 with the final iterate. -/
theorem mandelGo_no_escape (c seed : Cplx) (limit : ℕ) :
    ∀ fuel i, i + fuel = limit →
      (∀ j, i ≤ j → j < limit → ((mandelStep c)^[j + 1] seed).normSq ≤ 4) →
      mandelGo c limit fuel i ((mandelStep c)^[i] seed) =
        ⟨0, (mandelStep c)^[limit] seed⟩ := by
  intro fuel
  induction fuel with
  | zero =>
    intro i hi _
    have : i = limit := by omega
    subst this
    rfl
  | succ fuel ih =>
    intro i hi hno
    have hle : ((mandelStep c)^[i + 1] seed).normSq ≤ 4 := hno i le_rfl (by omega)
    show mandelGo c limit (fuel + 1) i _ = _
    rw [mandelGo, mandelGo_step_eq, if_neg (not_lt.mpr hle)]
    exact ih (i + 1) (by omega) fun j hj hj' => hno j (by omega) hj'

/-- When `i0` is the first bailout index reachable from loop position `i`,
`mandelGo` returns `limit - i0` with the bailing iterate. -/
theorem mandelGo_escape (c seed : Cplx) (limit : ℕ) :
    ∀ fuel i, i + fuel = limit → ∀ i0, i ≤ i0 → i0 < limit →
      (∀ j, i ≤ j → j < i0 → ((mandelStep c)^[j + 1] seed).normSq ≤ 4) →
      4 < ((mandelStep c)^[i0 + 1] seed).normSq →
      mandelGo c limit fuel i ((mandelStep c)^[i] seed) =
        ⟨limit - i0, (mandelStep c)^[i0 + 1] seed⟩ := by
  intro fuel
  induction fuel with
  | zero => intro i hi i0 h1 h2 _ _; omega
  | succ fuel ih =>
    intro i hi i0 h1 h2 hfirst hesc
    show mandelGo c limit (fuel + 1) i _ = _
    rw [mandelGo, mandelGo_step_eq]
    rcases eq_or_lt_of_le h1 with rfl | hlt
    · rw [if_pos hesc]
    · have hle : ((mandelStep c)^[i + 1] seed).normSq ≤ 4 := hfirst i le_rfl hlt
      rw [if_neg (not_lt.mpr hle)]
      exact ih (i + 1) (by omega) i0 (by omega) h2
        (fun j hj hj' => hfirst j (by omega) hj') hesc

theorem juliaGo_no_escape (seed start : Cplx) (limit : ℕ) :
    ∀ fuel i, i + fuel = limit →
      (∀ j, i ≤ j → j < limit → ((mandelStep seed)^[j + 1] start).normSq ≤ 4) →
      juliaGo seed limit fuel i ((mandelStep seed)^[i] start) =
        ⟨0, (mandelStep seed)^[limit] start⟩ := by
  intro fuel
  induction fuel with
  | zero =>
    intro i hi _
    have : i = limit := by omega
    subst this
    rfl
  | succ fuel ih =>
    intro i hi hno
    have hle : ((mandelStep seed)^[i + 1] start).normSq ≤ 4 := hno i le_rfl (by omega)
    show juliaGo seed limit (fuel + 1) i _ = _
    rw [juliaGo, mandelGo_step_eq, if_neg (not_lt.mpr hle)]
    exact ih (i + 1) (by omega) fun j hj hj' => hno j (by omega) hj'

theorem juliaGo_escape (seed start : Cplx) (limit : ℕ) :
    ∀ fuel i, i + fuel = limit → ∀ i0, i ≤ i0 → i0 < limit →
      (∀ j, i ≤ j → j < i0 → ((mandelStep seed)^[j + 1] start).normSq ≤ 4) →
      4 < ((mandelStep seed)^[i0 + 1] start).normSq →
      juliaGo seed limit fuel i ((mandelStep seed)^[i] start) =
        ⟨limit - i0, (mandelStep seed)^[i0 + 1] start⟩ := by
  intro fuel
  induction fuel with
  | zero => intro i hi i0 h1 h2 _ _; omega
  | succ fuel ih =>
    intro i hi i0 h1 h2 hfirst hesc
    show juliaGo seed limit (fuel + 1) i _ = _
    rw [juliaGo, mandelGo_step_eq]
    rcases eq_or_lt_of_le h1 with rfl | hlt
    · rw [if_pos hesc]
    · have hle : ((mandelStep seed)^[i + 1] start).normSq ≤ 4 := hfirst i le_rfl hlt
      rw [if_neg (not_lt.mpr hle)]
      exact ih (i + 1) (by omega) i0 (by omega) h2
        (fun j hj hj' => hfirst j (by omega) hj') hesc

theorem newtonGo_step_eq (seed start : Cplx) (i : ℕ) :
    newtonStep seed ((newtonStep seed)^[i] start) = (newtonStep seed)^[i + 1] start := by
  rw [Function.iterate_succ_apply']

theorem newtonGo_no_converge (seed start : Cplx) (limit : ℕ) :
    ∀ fuel i, i + fuel = limit →
      (∀ j, i ≤ j → j < limit →
        1 / 100000 <
          ((newtonStep seed)^[j + 1] start - (newtonStep seed)^[j] start).normSq) →
      newtonGo seed limit fuel i ((newtonStep seed)^[i] start) =
        ⟨0, (newtonStep seed)^[limit] start⟩ := by
  intro fuel
  induction fuel with
  | zero =>
    intro i hi _
    have : i = limit := by omega
    subst this
    rfl
  | succ fuel ih =>
    intro i hi hno
    have hgt := hno i le_rfl (by omega)
    show newtonGo seed limit (fuel + 1) i _ = _
    rw [newtonGo, newtonGo_step_eq, if_neg (not_le.mpr hgt)]
    exact ih (i + 1) (by omega) fun j hj hj' => hno j (by omega) hj'

theorem newtonGo_converge (seed start : Cplx) (limit : ℕ) :
    ∀ fuel i, i + fuel = limit → ∀ i0, i ≤ i0 → i0 < limit →
      (∀ j, i ≤ j → j < i0 →
        1 / 100000 <
          ((newtonStep seed)^[j + 1] start - (newtonStep seed)^[j] start).normSq) →
      ((newtonStep seed)^[i0 + 1] start - (newtonStep seed)^[i0] start).normSq ≤ 1 / 100000 →
      newtonGo seed limit fuel i ((newtonStep seed)^[i] start) =
        ⟨limit - i0, (newtonStep seed)^[i0 + 1] start⟩ := by
  intro fuel
  induction fuel with
  | zero => intro i hi i0 h1 h2 _ _; omega
  | succ fuel ih =>
    intro i hi i0 h1 h2 hfirst hconv
    show newtonGo seed limit (fuel + 1) i _ = _
    rw [newtonGo, newtonGo_step_eq]
    rcases eq_or_lt_of_le h1 with rfl | hlt
    · rw [if_pos hconv]
    · have hgt := hfirst i le_rfl hlt
      rw [if_neg (not_le.mpr hgt)]
      exact ih (i + 1) (by omega) i0 (by omega) h2
        (fun j hj hj' => hfirst j (by omega) hj') hconv

theorem Cplx.powN_two (z : Cplx) : z.powN 2 = (⟨1, 0⟩ : Cplx) * z * z := rfl

theorem Cplx.powN_three (z : Cplx) : z.powN 3 = (⟨1, 0⟩ : Cplx) * z * z * z := rfl

theorem mandelGo_eq_juliaGo (c : Cplx) (limit : ℕ) :
    ∀ fuel i z, mandelGo c limit fuel i z = juliaGo c limit fuel i z := by
  intro fuel
  induction fuel with
  | zero => intro i z; rfl
  | succ fuel ih =>
    intro i z
    simp only [mandelGo, juliaGo]
    split
    · rfl
    · exact ih (i + 1) (z * z + c)

theorem mandelStep_zero_iter (n : ℕ) :
    (mandelStep ⟨0, 0⟩)^[n] (⟨0, 0⟩ : Cplx) = ⟨0, 0⟩ := by
  induction n with
  | zero => rfl
  | succ n ih => rw [Function.iterate_succ_apply', ih]; norm_num [mandelStep]

/-! ## Claims about the escape evaluators -/

/-- C3: the Mandelbrot evaluator iterates `z ← z*z + c` from `z = seed`; if `i`
is the first index in `[0, limit)` at which the freshly computed iterate
`z_{i+1}` satisfies `|z_{i+1}|² > 4`, it returns `escape = limit - i` and
`value = z_{i+1}`; if no bailout occurs within `limit` iterations it returns
`escape = 0` with the final iterate as value. -/
theorem mandelbrot_escape_characterization (c seed : Cplx) (limit : ℕ) :
    (∀ i, i < limit →
        (∀ j, j < i → ((mandelStep c)^[j + 1] seed).normSq ≤ 4) →
        4 < ((mandelStep c)^[i + 1] seed).normSq →
        mandelbrot c seed limit = ⟨limit - i, (mandelStep c)^[i + 1] seed⟩) ∧
    ((∀ i, i < limit → ((mandelStep c)^[i + 1] seed).normSq ≤ 4) →
        mandelbrot c seed limit = ⟨0, (mandelStep c)^[limit] seed⟩) := by
  constructor
  · intro i hi hfirst hesc
    have h := mandelGo_escape c seed limit limit 0 (by omega) i (Nat.zero_le i) hi
      (fun j _ hj => hfirst j hj) hesc
    simpa [mandelbrot] using h
  · intro hno
    have h := mandelGo_no_escape c seed limit limit 0 (by omega) (fun j _ hj => hno j hj)
    simpa [mandelbrot] using h

/-- Witness for C3: `c = 3` escapes at the very first iteration of a 5-limit
run with value 3, and `c = 0` from seed 0 never escapes in 3 iterations. -/
theorem mandelbrot_escape_characterization_witness :
    mandelbrot ⟨3, 0⟩ ⟨0, 0⟩ 5 = ⟨5 - 0, (mandelStep ⟨3, 0⟩)^[0 + 1] ⟨0, 0⟩⟩ ∧
    mandelbrot ⟨0, 0⟩ ⟨0, 0⟩ 3 = ⟨0, (mandelStep ⟨0, 0⟩)^[3] ⟨0, 0⟩⟩ :=
  ⟨(mandelbrot_escape_characterization ⟨3, 0⟩ ⟨0, 0⟩ 5).1 0 (by norm_num)
      (fun j hj => absurd hj (Nat.not_lt_zero j))
      (by norm_num [mandelStep, Cplx.normSq]),
   (mandelbrot_escape_characterization ⟨0, 0⟩ ⟨0, 0⟩ 3).2
      (fun i _ => by rw [mandelStep_zero_iter]; norm_num [Cplx.normSq])⟩

/-- C5: the Julia evaluator iterates `z ← z*z + seed` starting from the pixel
point `c`, with the same bailout condition `|z|² > 4` and the same escape
encoding (`escape = limit - i` at the first bailout index, 0 if none) as the
Mandelbrot evaluator. -/
theorem julia_escape_characterization (c seed : Cplx) (limit : ℕ) :
    (∀ i, i < limit →
        (∀ j, j < i → ((mandelStep seed)^[j + 1] c).normSq ≤ 4) →
        4 < ((mandelStep seed)^[i + 1] c).normSq →
        julia c seed limit = ⟨limit - i, (mandelStep seed)^[i + 1] c⟩) ∧
    ((∀ i, i < limit → ((mandelStep seed)^[i + 1] c).normSq ≤ 4) →
        julia c seed limit = ⟨0, (mandelStep seed)^[limit] c⟩) := by
  constructor
  · intro i hi hfirst hesc
    have h := juliaGo_escape seed c limit limit 0 (by omega) i (Nat.zero_le i) hi
      (fun j _ hj => hfirst j hj) hesc
    simpa [julia] using h
  · intro hno
    have h := juliaGo_no_escape seed c limit limit 0 (by omega) (fun j _ hj => hno j hj)
    simpa [julia] using h

/-- Witness for C5: starting point 3 with seed 0 escapes immediately with
value 9, and starting point 0 with seed 0 never escapes in 3 iterations. -/
theorem julia_escape_characterization_witness :
    julia ⟨3, 0⟩ ⟨0, 0⟩ 5 = ⟨5 - 0, (mandelStep ⟨0, 0⟩)^[0 + 1] ⟨3, 0⟩⟩ ∧
    julia ⟨0, 0⟩ ⟨0, 0⟩ 3 = ⟨0, (mandelStep ⟨0, 0⟩)^[3] ⟨0, 0⟩⟩ :=
  ⟨(julia_escape_characterization ⟨3, 0⟩ ⟨0, 0⟩ 5).1 0 (by norm_num)
      (fun j hj => absurd hj (Nat.not_lt_zero j))
      (by norm_num [mandelStep, Cplx.normSq]),
   (julia_escape_characterization ⟨0, 0⟩ ⟨0, 0⟩ 3).2
      (fun i _ => by rw [mandelStep_zero_iter]; norm_num [Cplx.normSq])⟩

/-- C4: the Newton evaluator with `pow = 3` iterates
`z ← (2·z³ + seed) / (3·z²)`; if `i` is the first index in `[0, limit)` at
which `|z_{i+1} - z_i|² ≤ 1e-5`, it returns `escape = limit - i` with
`value = z_{i+1}`; otherwise `escape = 0` with the final iterate. -/
theorem newton_convergence_characterization (start seed : Cplx) (limit : ℕ) :
    (∀ i, i < limit →
        (∀ j, j < i →
          1 / 100000 <
            ((newtonStep seed)^[j + 1] start - (newtonStep seed)^[j] start).normSq) →
        ((newtonStep seed)^[i + 1] start - (newtonStep seed)^[i] start).normSq ≤ 1 / 100000 →
        newton start seed limit = ⟨limit - i, (newtonStep seed)^[i + 1] start⟩) ∧
    ((∀ i, i < limit →
        1 / 100000 <
          ((newtonStep seed)^[i + 1] start - (newtonStep seed)^[i] start).normSq) →
        newton start seed limit = ⟨0, (newtonStep seed)^[limit] start⟩) := by
  constructor
  · intro i hi hfirst hconv
    have h := newtonGo_converge seed start limit limit 0 (by omega) i (Nat.zero_le i) hi
      (fun j _ hj => hfirst j hj) hconv
    simpa [newton] using h
  · intro hno
    have h := newtonGo_no_converge seed start limit limit 0 (by omega) (fun j _ hj => hno j hj)
    simpa [newton] using h

/-- Witness for C4: starting exactly at the cube root 1 of `seed = 1` converges
at the first step (the update maps 1 to 1), while from 2 with `limit = 1` the
first step moves to 17/12, too far to converge. -/
theorem newton_convergence_characterization_witness :
    newton ⟨1, 0⟩ ⟨1, 0⟩ 5 = ⟨5 - 0, (newtonStep ⟨1, 0⟩)^[0 + 1] ⟨1, 0⟩⟩ ∧
    newton ⟨2, 0⟩ ⟨1, 0⟩ 1 = ⟨0, (newtonStep ⟨1, 0⟩)^[1] ⟨2, 0⟩⟩ :=
  ⟨(newton_convergence_characterization ⟨1, 0⟩ ⟨1, 0⟩ 5).1 0 (by norm_num)
      (fun j hj => absurd hj (Nat.not_lt_zero j))
      (by norm_num [newtonStep, Cplx.ofRat, Cplx.powN_two, Cplx.powN_three, Cplx.normSq]),
   (newton_convergence_characterization ⟨2, 0⟩ ⟨1, 0⟩ 1).2
      (fun i hi => by
        have h0 : i = 0 := by omega
        subst h0
        norm_num [newtonStep, Cplx.ofRat, Cplx.powN_two, Cplx.powN_three, Cplx.normSq])⟩

/-- C9: the Mandelbrot evaluator at `c = 0` with seed 0 never bails out: every
iterate stays at zero, so the returned escape is 0 for every positive limit. -/
theorem mandelbrot_origin_never_escapes (limit : ℕ) (_hpos : 0 < limit) :
    (mandelbrot ⟨0, 0⟩ ⟨0, 0⟩ limit).escape = 0 := by
  have h := mandelGo_no_escape ⟨0, 0⟩ ⟨0, 0⟩ limit limit 0 (by omega)
    (fun j _ _ => by rw [mandelStep_zero_iter]; norm_num [Cplx.normSq])
  simp only [Function.iterate_zero_apply] at h
  rw [mandelbrot, h]

/-- Witness for C9 at `limit = 7`. -/
theorem mandelbrot_origin_never_escapes_witness :
    0 < 7 ∧ (mandelbrot ⟨0, 0⟩ ⟨0, 0⟩ 7).escape = 0 :=
  ⟨by norm_num, mandelbrot_origin_never_escapes 7 (by norm_num)⟩

/-- C10: `mandelbrot` and `julia` are argument-swapped versions of the same
loop: for all complex `a`, `b` and every limit, `mandelbrot(c = a, seed = b)`
returns exactly the same `FractalResult` as `julia(start = b, seed = a)`. -/
theorem mandelbrot_eq_julia_swapped (a b : Cplx) (limit : ℕ) :
    mandelbrot a b limit = julia b a limit :=
  mandelGo_eq_juliaGo a limit limit 0 b

/-! ## Claims about the coordinate mapper -/

/-- C6: `pixel_to_point` returns the complex point with real part
`upper_left.re + column * (lower_right.re - upper_left.re) / width` and
imaginary part `upper_left.im - row * (upper_left.im - lower_right.im) / height`;
being a Lean function of its arguments it is pure and deterministic, and it is
total (no failure modes). -/
theorem pixel_to_point_formula (bounds pixel : ℕ × ℕ) (upper_left lower_right : Cplx) :
    pixel_to_point bounds pixel upper_left lower_right =
      ⟨upper_left.re +
         (pixel.1 : ℚ) * (lower_right.re - upper_left.re) / (bounds.1 : ℚ),
       upper_left.im -
         (pixel.2 : ℚ) * (upper_left.im - lower_right.im) / (bounds.2 : ℚ)⟩ := rfl

/-- C7: for positive bounds `pixel_to_point` maps pixel (0,0) to the upper-left
corner and pixel (width, height) to the lower-right corner (exactly, in the
rational model), and on the spec's concrete example it returns (-0.5, -0.5). -/
theorem pixel_to_point_affine_corners (W H : ℕ) (ul lr : Cplx)
    (hW : 0 < W) (hH : 0 < H) :
    pixel_to_point (W, H) (0, 0) ul lr = ul ∧
    pixel_to_point (W, H) (W, H) ul lr = lr ∧
    pixel_to_point (100, 100) (25, 75) ⟨-1, 1⟩ ⟨1, -1⟩ = ⟨-1/2, -1/2⟩ := by
  have hW' : (W : ℚ) ≠ 0 := Nat.cast_ne_zero.mpr hW.ne'
  have hH' : (H : ℚ) ≠ 0 := Nat.cast_ne_zero.mpr hH.ne'
  refine ⟨?_, ?_, ?_⟩
  · apply Cplx.ext <;> simp [pixel_to_point]
  · apply Cplx.ext <;>
      (simp only [pixel_to_point]; field_simp)
  · apply Cplx.ext <;> norm_num [pixel_to_point]

/-- Witness for C7 at bounds (2, 3) with corners (-1+i) and (1-i). -/
theorem pixel_to_point_affine_corners_witness :
    pixel_to_point (2, 3) (0, 0) ⟨-1, 1⟩ ⟨1, -1⟩ = ⟨-1, 1⟩ ∧
    pixel_to_point (2, 3) (2, 3) ⟨-1, 1⟩ ⟨1, -1⟩ = ⟨1, -1⟩ ∧
    pixel_to_point (100, 100) (25, 75) ⟨-1, 1⟩ ⟨1, -1⟩ = ⟨-1/2, -1/2⟩ :=
  pixel_to_point_affine_corners 2 3 ⟨-1, 1⟩ ⟨1, -1⟩ (by norm_num) (by norm_num)

/-! ## The band scheduler -/

/-- Modelled from the spec: `render_to_result`, the per-band renderer that
main.rs line 80 calls, is not defined in any file under src/. Spec section 4.3
says each band worker, "for every pixel in its row-major sub-range, maps
pixel→point (4.1) and evaluates (4.2), writing directly into its exclusive
sub-range"; the filled sub-range is modelled as the row-major list of the
per-pixel results. -/
def render_to_result (bounds : ℕ × ℕ) (upper_left lower_right : Cplx)
    (method : Fractal) (seed : Cplx) (limit : ℕ) : List FractalResult :=
  (List.range bounds.2).flatMap fun row =>
    (List.range bounds.1).map fun col =>
      method.calculate (pixel_to_point bounds (col, row) upper_left lower_right) seed limit

/-- The band loop of main.rs lines 70-90: each band of height `h` starting at
row `top` gets band bounds `(width, h)` and corners obtained by mapping
`(0, top)` and `(width, top + h)` through `pixel_to_point` with the global
bounds and corners; the concatenation of the band buffers is the image. -/
def bandedGo (bounds : ℕ × ℕ) (upper_left lower_right : Cplx) (method : Fractal)
    (seed : Cplx) (limit : ℕ) : ℕ → List ℕ → List FractalResult
  | _, [] => []
  | top, h :: rest =>
    render_to_result (bounds.1, h)
        (pixel_to_point bounds (0, top) upper_left lower_right)
        (pixel_to_point bounds (bounds.1, top + h) upper_left lower_right)
        method seed limit
      ++ bandedGo bounds upper_left lower_right method seed limit (top + h) rest

/-- Banded render over a list `hs` of band heights (main.rs lines 64-98),
starting at row 0. -/
def bandedRender (bounds : ℕ × ℕ) (upper_left lower_right : Cplx) (method : Fractal)
    (seed : Cplx) (limit : ℕ) (hs : List ℕ) : List FractalResult :=
  bandedGo bounds upper_left lower_right method seed limit 0 hs

/-- Pointwise correctness of band-local coordinates: a pixel `(col, r)` of a
band of height `h` at row offset `top`, mapped through the band-local bounds
and the band corners obtained from the global mapping, lands exactly on the
global mapping of pixel `(col, top + r)`. -/
theorem pixel_to_point_band (W H top h col r : ℕ) (ul lr : Cplx)
    (hW : W ≠ 0) (hh : h ≠ 0) :
    pixel_to_point (W, h) (col, r)
      (pixel_to_point (W, H) (0, top) ul lr)
      (pixel_to_point (W, H) (W, top + h) ul lr) =
    pixel_to_point (W, H) (col, top + r) ul lr := by
  have hW' : (W : ℚ) ≠ 0 := Nat.cast_ne_zero.mpr hW
  have hh' : (h : ℚ) ≠ 0 := Nat.cast_ne_zero.mpr hh
  apply Cplx.ext
  · simp only [pixel_to_point]
    push_cast
    field_simp
  · simp only [pixel_to_point]
    push_cast
    rcases eq_or_ne (H : ℚ) 0 with hH | hH
    · rw [hH]
      simp
    · field_simp
      ring

/-- A band render with band-local corners equals the row-major results of the
global rows `top, …, top + h - 1`. -/
theorem render_band_rows (W H top h : ℕ) (ul lr : Cplx) (method : Fractal)
    (seed : Cplx) (limit : ℕ) (hW : W ≠ 0) (hh : h ≠ 0) :
    render_to_result (W, h)
        (pixel_to_point (W, H) (0, top) ul lr)
        (pixel_to_point (W, H) (W, top + h) ul lr)
        method seed limit =
      (List.range' top h).flatMap fun row =>
        (List.range W).map fun col =>
          method.calculate (pixel_to_point (W, H) (col, row) ul lr) seed limit := by
  rw [List.range'_eq_map_range, List.flatMap_map]
  unfold render_to_result
  refine congrArg _ (funext fun r => ?_)
  refine congrArg (fun f => List.map f (List.range W)) (funext fun col => ?_)
  rw [pixel_to_point_band W H top h col r ul lr hW hh]

/-- Concatenating the bands renders exactly the global rows starting at `top`. -/
theorem bandedGo_rows (W H : ℕ) (ul lr : Cplx) (method : Fractal) (seed : Cplx)
    (limit : ℕ) (hW : W ≠ 0) :
    ∀ hs top, (∀ h ∈ hs, h ≠ 0) →
      bandedGo (W, H) ul lr method seed limit top hs =
        (List.range' top hs.sum).flatMap fun row =>
          (List.range W).map fun col =>
            method.calculate (pixel_to_point (W, H) (col, row) ul lr) seed limit := by
  intro hs
  induction hs with
  | nil => intro top _; simp [bandedGo]
  | cons h rest ih =>
    intro top hmem
    rw [bandedGo,
      render_band_rows W H top h ul lr method seed limit hW (hmem h (List.mem_cons_self h rest)),
      ih (top + h) (fun h' hh' => hmem h' (List.mem_cons_of_mem h hh')),
      ← List.flatMap_append, List.sum_cons,
      show top + h = top + 1 * h by ring, List.range'_append, Nat.add_comm rest.sum h]

/-- C1: for every bounds, corners, fractal variant, seed and limit, rendering
via any partition of the image rows into bands of positive heights `hs`
(including every band count `hs.length = N ≥ 1`), where each band's corners
are obtained by mapping `(0, top)` and `(width, top + band_height)` through
`pixel_to_point` with the global bounds and the band is rendered with
band-local bounds, produces a buffer identical to the single unbanded pass. -/
theorem bandedRender_eq_unbanded (W H : ℕ) (ul lr : Cplx) (method : Fractal)
    (seed : Cplx) (limit : ℕ) (hs : List ℕ) (hW : 0 < W)
    (hmem : ∀ h ∈ hs, 0 < h) (hsum : hs.sum = H) :
    bandedRender (W, H) ul lr method seed limit hs =
      render_to_result (W, H) ul lr method seed limit := by
  unfold bandedRender
  rw [bandedGo_rows W H ul lr method seed limit hW.ne' hs 0
      (fun h hh => (hmem h hh).ne'), hsum, ← List.range_eq_range']
  rfl

/-- Witness for C1: a 2×3 Mandelbrot image rendered as two bands of heights
2 and 1 equals the unbanded render. -/
theorem bandedRender_eq_unbanded_witness :
    bandedRender (2, 3) ⟨-1, 1⟩ ⟨1, -1⟩ .MANDELBROT ⟨0, 0⟩ 4 [2, 1] =
      render_to_result (2, 3) ⟨-1, 1⟩ ⟨1, -1⟩ .MANDELBROT ⟨0, 0⟩ 4 :=
  bandedRender_eq_unbanded 2 3 ⟨-1, 1⟩ ⟨1, -1⟩ .MANDELBROT ⟨0, 0⟩ 4 [2, 1]
    (by norm_num) (by decide) (by decide)

/-- `FractalResult::zero` from src/fractal.rs lines 14-19. -/
def FractalResult.zero : FractalResult := ⟨0, ⟨0, 0⟩⟩

/-- The rows-per-band computation of main.rs line 66:
`let rows_per_band = bounds.1 / threads + 1;` (integer floor division). -/
def rows_per_band (height threads : ℕ) : ℕ := height / threads + 1

/-- `slice::chunks_mut(s)`: consecutive chunks of `s` elements, the last one
possibly shorter; empty input gives no chunks. (Rust panics on `s = 0`; the
model returns no chunks there, a case excluded by the theorems' hypotheses.) -/
def chunksOf {α : Type} [DecidableEq α] (s : ℕ) (l : List α) : List (List α) :=
  if h : s = 0 ∨ l = [] then []
  else l.take s :: chunksOf s (l.drop s)
termination_by l.length
decreasing_by
  push_neg at h
  simp only [List.length_drop]
  have h1 : 0 < l.length := List.length_pos.mpr h.2
  have h2 : 0 < s := Nat.pos_of_ne_zero h.1
  omega

theorem chunksOf_nil {α : Type} [DecidableEq α] (s : ℕ) : chunksOf s ([] : List α) = [] := by
  rw [chunksOf]
  simp

/-- The chunks concatenate back to the original list. -/
theorem chunksOf_flatten {α : Type} [DecidableEq α] (s : ℕ) (hs : s ≠ 0) :
    ∀ n (l : List α), l.length ≤ n → (chunksOf s l).flatten = l := by
  intro n
  induction n with
  | zero =>
    intro l hl
    have : l = [] := List.length_eq_zero.mp (Nat.le_zero.mp hl)
    subst this
    rw [chunksOf_nil]
    rfl
  | succ n ih =>
    intro l hl
    by_cases hl0 : l = []
    · subst hl0
      rw [chunksOf_nil]
      rfl
    · rw [chunksOf, dif_neg (by push_neg; exact ⟨hs, hl0⟩), List.flatten_cons,
        ih (l.drop s) ?_, List.take_append_drop]
      have h1 : 0 < l.length := List.length_pos.mpr hl0
      have h2 : 0 < s := Nat.pos_of_ne_zero hs
      simp only [List.length_drop]
      omega

/-- Every chunk has at most `s` elements. -/
theorem chunksOf_length_le {α : Type} [DecidableEq α] (s : ℕ) :
    ∀ n (l : List α), l.length ≤ n → ∀ c ∈ chunksOf s l, c.length ≤ s := by
  intro n
  induction n with
  | zero =>
    intro l hl c hc
    have : l = [] := List.length_eq_zero.mp (Nat.le_zero.mp hl)
    subst this
    rw [chunksOf_nil] at hc
    exact absurd hc (List.not_mem_nil c)
  | succ n ih =>
    intro l hl c hc
    by_cases h0 : s = 0 ∨ l = []
    · rw [chunksOf, dif_pos h0] at hc
      exact absurd hc (List.not_mem_nil c)
    · rw [chunksOf, dif_neg h0] at hc
      push_neg at h0
      rcases List.mem_cons.mp hc with rfl | hc'
      · simp [List.length_take]
      · refine ih (l.drop s) ?_ c hc'
        have h1 : 0 < l.length := List.length_pos.mpr h0.2
        have h2 : 0 < s := Nat.pos_of_ne_zero h0.1
        simp only [List.length_drop]
        omega

/-- Every chunk except possibly the last has exactly `s` elements. -/
theorem chunksOf_dropLast_length {α : Type} [DecidableEq α] (s : ℕ) :
    ∀ n (l : List α), l.length ≤ n → ∀ c ∈ (chunksOf s l).dropLast, c.length = s := by
  intro n
  induction n with
  | zero =>
    intro l hl c hc
    have : l = [] := List.length_eq_zero.mp (Nat.le_zero.mp hl)
    subst this
    rw [chunksOf_nil] at hc
    exact absurd hc (List.not_mem_nil c)
  | succ n ih =>
    intro l hl c hc
    by_cases h0 : s = 0 ∨ l = []
    · rw [chunksOf, dif_pos h0] at hc
      exact absurd hc (List.not_mem_nil c)
    · rw [chunksOf, dif_neg h0] at hc
      push_neg at h0
      have h1 : 0 < l.length := List.length_pos.mpr h0.2
      have h2 : 0 < s := Nat.pos_of_ne_zero h0.1
      have hdroplen : (l.drop s).length ≤ n := by
        simp only [List.length_drop]
        omega
      rcases hrest : chunksOf s (l.drop s) with _ | ⟨a, t⟩
      · rw [hrest] at hc
        exact absurd hc (List.not_mem_nil c)
      · rw [hrest, List.dropLast_cons₂] at hc
        rcases List.mem_cons.mp hc with rfl | hc'
        · have hd : l.drop s ≠ [] := by
            intro hnil
            rw [hnil, chunksOf_nil] at hrest
            exact List.cons_ne_nil a t hrest.symm
          have hlt : s < l.length := by
            have := List.length_pos.mpr hd
            simp only [List.length_drop] at this
            omega
          simp only [List.length_take]
          omega
        · exact ih (l.drop s) hdroplen c (by rw [hrest]; exact hc')

/-- C2 (amended): for positive height `H`, worker count `T` and width `W`, the
band scheduler computes `rows_per_band = H / T + 1` (floor division plus one,
not the ceiling of `H / T`, which differs exactly when `T` divides `H`), and
partitions any buffer of length `W * H` into consecutive chunks of
`rows_per_band * W` elements each, with only the final chunk possibly
shorter. -/
theorem band_scheduler_partition (H T W : ℕ) (buf : List FractalResult)
    (_hH : 0 < H) (_hT : 0 < T) (hW : 0 < W) (_hlen : buf.length = W * H) :
    rows_per_band H T = H / T + 1 ∧
    (chunksOf (rows_per_band H T * W) buf).flatten = buf ∧
    (∀ c ∈ (chunksOf (rows_per_band H T * W) buf).dropLast,
      c.length = rows_per_band H T * W) ∧
    (∀ c ∈ chunksOf (rows_per_band H T * W) buf,
      c.length ≤ rows_per_band H T * W) := by
  have hs : rows_per_band H T * W ≠ 0 := by
    have : 0 < rows_per_band H T := Nat.succ_pos _
    positivity
  exact ⟨rfl,
    chunksOf_flatten _ hs buf.length buf le_rfl,
    chunksOf_dropLast_length _ buf.length buf le_rfl,
    chunksOf_length_le _ buf.length buf le_rfl⟩

/-- Counterexample to C2 as stated: at `H = 4`, `T = 2` the code computes
`rows_per_band = 4 / 2 + 1 = 3`, while the ceiling of `H / T`, written
`(4 + 2 - 1) / 2`, is 2. -/
theorem rows_per_band_not_ceil : rows_per_band 4 2 = 3 ∧ (4 + 2 - 1) / 2 = 2 := by
  constructor <;> rfl

/-- Witness for C2 at `H = 3`, `T = 2`, `W = 2` on a zeroed 6-element buffer:
the hypotheses hold there and the chunks flatten back to the buffer. -/
theorem band_scheduler_partition_witness :
    0 < 3 ∧ 0 < 2 ∧ (List.replicate 6 FractalResult.zero).length = 2 * 3 ∧
    rows_per_band 3 2 = 3 / 2 + 1 ∧
    (chunksOf (rows_per_band 3 2 * 2) (List.replicate 6 FractalResult.zero)).flatten =
      List.replicate 6 FractalResult.zero :=
  ⟨by norm_num, by norm_num, by simp,
    (band_scheduler_partition 3 2 2 (List.replicate 6 FractalResult.zero)
      (by norm_num) (by norm_num) (by norm_num) (by simp)).1,
    (band_scheduler_partition 3 2 2 (List.replicate 6 FractalResult.zero)
      (by norm_num) (by norm_num) (by norm_num) (by simp)).2.1⟩

/-! ## Render entry point and its precondition -/

/-- Error taxonomy of spec section 7 (the precondition case). -/
inductive RenderError where
  | PreconditionViolation
deriving DecidableEq, Repr

/-- Modelled from the spec: the render entry point (`render_to_result`, called
at main.rs line 80) is not defined in any file under src/. Spec sections 4.3,
6 and 7 give it the precondition `buffer.length == bounds.width * bounds.height`,
whose violation "must fail with PreconditionViolation, never silently truncate
or overrun"; on a well-sized buffer it fills the buffer with the per-pixel
results. -/
def render (out : List FractalResult) (bounds : ℕ × ℕ) (upper_left lower_right : Cplx)
    (variant : Fractal) (seed : Cplx) (limit : ℕ) :
    Except RenderError (List FractalResult) :=
  if out.length = bounds.1 * bounds.2 then
    Except.ok (render_to_result bounds upper_left lower_right variant seed limit)
  else Except.error RenderError.PreconditionViolation

/-- C8: a render whose output buffer length differs from `width * height`
fails with `PreconditionViolation` (it never returns a computed buffer, so it
neither truncates nor overruns). -/
theorem render_length_mismatch_fails (out : List FractalResult) (bounds : ℕ × ℕ)
    (upper_left lower_right : Cplx) (variant : Fractal) (seed : Cplx) (limit : ℕ)
    (hlen : out.length ≠ bounds.1 * bounds.2) :
    render out bounds upper_left lower_right variant seed limit =
      Except.error RenderError.PreconditionViolation := by
  rw [render, if_neg hlen]

/-- Witness for C8: an empty buffer against 1×1 bounds is rejected. -/
theorem render_length_mismatch_fails_witness :
    render [] (1, 1) ⟨-1, 1⟩ ⟨1, -1⟩ .MANDELBROT ⟨0, 0⟩ 8 =
      Except.error RenderError.PreconditionViolation :=
  render_length_mismatch_fails [] (1, 1) ⟨-1, 1⟩ ⟨1, -1⟩ .MANDELBROT ⟨0, 0⟩ 8
    (by norm_num)

end FractalRust
